import Mathlib
/-!
Verification development for the site-blocker core (src/site-blocker.ts and
the enable-blocking handler of src/main.ts).

Strings from the JavaScript side are modelled as `List Char` (`Str`), so
that all string operations used by the code (trim, prefix stripping,
splitting, joining, lowercasing) are plain structural recursions that can
be both executed and reasoned about.  Each definition mirrors one source
function; host-environment primitives (JSON.parse, Date parsing, the OS
signal probe) are passed in as explicit function parameters.
-/

namespace SiteBlocker

/-- JavaScript strings, modelled as lists of characters. -/
abbrev Str := List Char

/-- Coerce a Lean string literal into the model. -/
def str (s : String) : Str := s.toList

/-- Whitespace recognised by JavaScript String.prototype.trim
(ASCII subset: space, tab, newline, carriage return, vertical tab, form feed). -/
def isSpace (c : Char) : Bool :=
  c = ' ' || c = '\t' || c = '\n' || c = '\r' || c = '\x0b' || c = '\x0c'

/-- Drop leading whitespace (JS trimStart). -/
def dropSp : Str → Str
  | [] => []
  | c :: cs => if isSpace c then dropSp cs else c :: cs

/-- Leading whitespace of a string (complement of `dropSp`). -/
def takeSp : Str → Str
  | [] => []
  | c :: cs => if isSpace c then c :: takeSp cs else []

/-- JS String.prototype.trimEnd. -/
def jsTrimEnd (s : Str) : Str := (dropSp s.reverse).reverse

/-- JS String.prototype.trim. -/
def jsTrim (s : Str) : Str := dropSp (jsTrimEnd s)

/-- Boolean prefix test on character lists (JS RegExp anchored literal match). -/
def hasPre : Str → Str → Bool
  | [], _ => true
  | _ :: _, [] => false
  | p :: ps, c :: cs => p = c && hasPre ps cs

/-- Strip a literal leading pattern if present, else leave unchanged
(JS String.prototype.replace with an anchored literal regexp). -/
def stripPre (p s : Str) : Str := if hasPre p s then s.drop p.length else s

/-- Strip the scheme, as the regexp of site-blocker.ts line 80 does:
one replace of a leading http:// or https:// (https preferred, matching
the greedy s? of the regexp). -/
def stripScheme (s : Str) : Str :=
  if hasPre (str "https://") s then s.drop 8
  else if hasPre (str "http://") s then s.drop 7
  else s

/-- ASCII lowercasing of one character (JS toLowerCase restricted to the
ASCII range, which is all the repository ever feeds it). -/
def lowerChar (c : Char) : Char :=
  if 'A' ≤ c ∧ c ≤ 'Z' then Char.ofNat (c.toNat + 32) else c

/-- Errors thrown by normalizeDomain. -/
inductive NormError where
  | emptyInput
  | invalidDomain (d : Str)
deriving DecidableEq

/-- Embedding of normalizeDomain (site-blocker.ts lines 75-91):
trim; reject empty; strip scheme; strip one leading literal www.;
truncate at the first slash (split("/")[0]); lowercase and trim again;
reject if no dot remains. -/
def normalizeDomain (raw : Str) : Except NormError Str :=
  let d := jsTrim raw
  if d = [] then .error .emptyInput
  else
    let d1 := stripScheme d
    let d2 := stripPre (str "www.") d1
    let d3 := d2.takeWhile (fun c => c ≠ '/')
    let d4 := jsTrim (d3.map lowerChar)
    if '.' ∈ d4 then .ok d4 else .error (.invalidDomain d4)

/-- The canonical pipeline applied after trimming (lines 80-86 of the source). -/
def canonPipeline (d : Str) : Str :=
  jsTrim ((List.takeWhile (fun c => c ≠ '/')
    (stripPre (str "www.") (stripScheme d))).map lowerChar)

/-- JSON values, as produced by the host JSON.parse / consumed by
JSON.stringify. -/
inductive Json where
  | null
  | bool (b : Bool)
  | num (n : Int)
  | str (s : Str)
  | arr (xs : List Json)
  | obj (fields : List (Str × Json))

/-- Property lookup on a parsed JSON object: with duplicate keys,
JSON.parse keeps the last occurrence, so later fields win. -/
def lookupField : List (Str × Json) → Str → Option Json
  | [], _ => none
  | (k, v) :: rest, key =>
    match lookupField rest key with
    | some r => some r
    | none => if k = key then some v else none

/-- Field lookup on an arbitrary JSON value (JS property access: only
objects carry fields; arrays, primitives and null yield undefined). -/
def jsonField : Json → Str → Option Json
  | .obj fields, key => lookupField fields key
  | _, _ => none

/-- The persisted config shape (interface SiteBlockerConfig,
site-blocker.ts lines 95-97): a single domains field. -/
structure SiteBlockerConfig where
  domains : List Str
deriving DecidableEq

/-- JSON.stringify of a SiteBlockerConfig value: exactly one key,
"domains", holding the array of domain strings. -/
def configToJson (c : SiteBlockerConfig) : Json :=
  .obj [(str "domains", .arr (c.domains.map .str))]

/-- The missing-file branch of loadConfig (site-blocker.ts lines 102-106):
synthesize the default config, persist it via saveConfig, return it.
Result: (returned config, JSON object persisted to disk). -/
def loadConfigMissing : SiteBlockerConfig × Json :=
  ({ domains := [] }, configToJson { domains := [] })

/-- loadConfig over an abstract config-file state: an absent file yields
the default and writes it; a present well-formed file is parsed and
returned with no write.  Result: (parsed config, file state afterwards). -/
def loadConfigC : Option SiteBlockerConfig → SiteBlockerConfig × Option SiteBlockerConfig
  | none => ({ domains := [] }, some { domains := [] })
  | some c => (c, some c)

/-- The body of the addDomains loop (site-blocker.ts lines 129-135):
normalize each raw input (a thrown error aborts the loop), skip domains
already present, push new ones onto both the config and the added list. -/
def addLoop : List Str → List Str → List Str → Except NormError (List Str × List Str)
  | [], domains, added => .ok (domains, added)
  | raw :: rest, domains, added =>
    match normalizeDomain raw with
    | .error e => .error e
    | .ok d =>
      if d ∈ domains then addLoop rest domains added
      else addLoop rest (domains ++ [d]) (added ++ [d])

/-- Embedding of addDomains (site-blocker.ts lines 123-140) over the
abstract config-file state.  Returns the added list (or the thrown
normalization error) together with the file state afterwards; saveConfig
runs only when at least one domain was added. -/
def addDomains (ds : List Str) (file : Option SiteBlockerConfig) :
    Except NormError (List Str) × Option SiteBlockerConfig :=
  let load := loadConfigC file
  match addLoop ds load.1.domains [] with
  | .error e => (.error e, load.2)
  | .ok (newDomains, added) =>
    if added = [] then (.ok added, load.2)
    else (.ok added, some { domains := newDomains })

/-- JS content.split("\n"): "" gives [""], a trailing newline yields a
final empty piece. -/
def splitLines : Str → List Str
  | [] => [[]]
  | c :: cs =>
    if c = '\n' then [] :: splitLines cs
    else
      match splitLines cs with
      | [] => [[c]]
      | l :: ls => (c :: l) :: ls

/-- JS array.join("\n"). -/
def joinLines : List Str → Str
  | [] => []
  | [l] => l
  | l :: ls => l ++ '\n' :: joinLines ls

/-- Managed-block begin marker (site-blocker.ts line 15). -/
def MARKER_BEGIN : Str := str "# BEGIN SITE-BLOCKER"

/-- Managed-block end marker (site-blocker.ts line 16). -/
def MARKER_END : Str := str "# END SITE-BLOCKER"

/-- The scanning loop of parseHostsRemoveBlock (site-blocker.ts lines
178-190): marker lines toggle the inBlock flag and are dropped; other
lines are kept only outside the block. -/
def removeBlockLines : Bool → List Str → List Str
  | _, [] => []
  | inBlock, l :: ls =>
    if jsTrim l = MARKER_BEGIN then removeBlockLines true ls
    else if jsTrim l = MARKER_END then removeBlockLines false ls
    else if inBlock then removeBlockLines inBlock ls
    else l :: removeBlockLines inBlock ls

/-- Drop a run of whitespace-only lines from the front. -/
def dropBlanks : List Str → List Str
  | [] => []
  | l :: ls => if jsTrim l = [] then dropBlanks ls else l :: ls

/-- The trailing while-pop of parseHostsRemoveBlock (lines 193-195):
remove trailing lines whose trim is empty. -/
def dropTrailingBlankLines (ls : List Str) : List Str :=
  (dropBlanks ls.reverse).reverse

/-- Embedding of parseHostsRemoveBlock (site-blocker.ts lines 173-198):
split into lines, drop the managed block(s), drop trailing blank lines,
rejoin with a final newline. -/
def parseHostsRemoveBlock (content : Str) : Str :=
  joinLines (dropTrailingBlankLines (removeBlockLines false (splitLines content))) ++ ['\n']

/-- Lexicographic boolean order on strings by character code, the order
used by the default Array.prototype.sort comparator. -/
def strLe : Str → Str → Bool
  | [], _ => true
  | _ :: _, [] => false
  | a :: as, b :: bs =>
    if a.toNat < b.toNat then true
    else if b.toNat < a.toNat then false
    else strLe as bs

/-- Ordered insertion for the sort model. -/
def insertLe (x : Str) : List Str → List Str
  | [] => [x]
  | y :: ys => if strLe x y then x :: y :: ys else y :: insertLe x ys

/-- Model of [...domains].sort() (site-blocker.ts line 209).  strLe is a
total order (it is antisymmetric on lists of characters), so the sorted
permutation is unique and any correct sorting algorithm produces it;
insertion sort is used as the executable model. -/
def jsSort : List Str → List Str
  | [] => []
  | x :: xs => insertLe x (jsSort xs)

/-- The loopback-mapping line for a domain (line 212). -/
def loopbackLine (d : Str) : Str := str "127.0.0.1 " ++ d

/-- The www-alias loopback line (line 214). -/
def loopbackWwwLine (d : Str) : Str := str "127.0.0.1 www." ++ d

/-- The override lines one domain contributes to the block (lines
211-216): the domain line plus, unless the domain already starts with
www., the alias line. -/
def domainLines (d : Str) : List Str :=
  loopbackLine d :: (if hasPre (str "www.") d then [] else [loopbackWwwLine d])

/-- The full managed block for the sorted domain list (lines 210-217). -/
def blockLinesFor (sorted : List Str) : List Str :=
  MARKER_BEGIN :: (sorted.flatMap domainLines ++ [MARKER_END])

/-- Embedding of buildHostsContent (site-blocker.ts lines 200-220):
strip any existing block; with no domains return the stripped base,
otherwise append the freshly built block after one separator blank line. -/
def buildHostsContent (original : Str) (domains : List Str) : Str :=
  let base := parseHostsRemoveBlock original
  if domains = [] then base
  else jsTrimEnd base ++ '\n' :: '\n' :: (joinLines (blockLinesFor (jsSort domains)) ++ ['\n'])

/-- Dual of the removeBlockLines scanner: collect exactly the lines lying
strictly inside the managed block (used to state what the emitted block
contains). -/
def collectBlock : Bool → List Str → List Str
  | _, [] => []
  | inBlock, l :: ls =>
    if jsTrim l = MARKER_BEGIN then collectBlock true ls
    else if jsTrim l = MARKER_END then collectBlock false ls
    else if inBlock then l :: collectBlock inBlock ls
    else collectBlock inBlock ls

/-- The lines of the managed block of a hosts-file content. -/
def managedBlockLines (content : Str) : List Str :=
  collectBlock false (splitLines content)

/-- A line is not one of the two marker lines (up to trimming). -/
def NotMarker (l : Str) : Prop :=
  jsTrim l ≠ MARKER_BEGIN ∧ jsTrim l ≠ MARKER_END

/-- The ordering relation underlying the sort model, as a proposition. -/
def strLeP (a b : Str) : Prop := strLe a b = true

/-- A JavaScript number as relevant to isPidRunning: NaN, the two
infinities, or a finite value (modelled as a rational). -/
inductive JsNum where
  | nan
  | inf
  | negInf
  | num (q : ℚ)

/-- Number.isFinite. -/
def jsIsFinite : JsNum → Bool
  | .num _ => true
  | _ => false

/-- The JS comparison pid <= 0 (false on NaN). -/
def jsLeZero : JsNum → Bool
  | .nan => false
  | .inf => false
  | .negInf => true
  | .num q => q ≤ 0

/-- Whether the value is an integer in signed 32-bit range: Node's
process.kill validates pid via pid != (pid | 0) and throws
ERR_INVALID_ARG_TYPE otherwise, before any syscall. -/
def isInt32 : JsNum → Bool
  | .num q => q.den = 1 ∧ -(2 ^ 31) ≤ q.num ∧ q.num < 2 ^ 31
  | _ => false

/-- The integer value of a finite JsNum (its numerator when integral). -/
def jsToInt : JsNum → Int
  | .num q => q.num
  | _ => 0

/-- Outcome of the OS-level kill(pid, 0) probe. -/
inductive ProbeResult where
  | success
  | eperm
  | esrch
  | other

/-- Embedding of isPidRunning (site-blocker.ts lines 305-315).  The OS
probe is a parameter; process.kill's own pid validation (throwing
ERR_INVALID_ARG_TYPE, whose code is not "EPERM", for non-int32 pids
before any signal is sent) is part of the model.  The catch block treats
exactly a code of "EPERM" as alive. -/
def isPidRunning (probe : Int → ProbeResult) (pid : JsNum) : Bool :=
  if !(jsIsFinite pid) || jsLeZero pid then false
  else if !(isInt32 pid) then false
  else
    match probe (jsToInt pid) with
    | .success => true
    | .eperm => true
    | .esrch => false
    | .other => false

/-- Whether the call reaches an actual OS signal probe (the same guard
structure as isPidRunning, with no probe performed). -/
def pidProbed (pid : JsNum) : Bool :=
  if !(jsIsFinite pid) || jsLeZero pid then false
  else if !(isInt32 pid) then false
  else true

/-- Abstract model of the enable-blocking IPC handler (main.ts lines
100-108): load the config, throw if the domain list is empty, otherwise
perform the privileged hosts write with the configured domains.  Result:
(thrown error or unit, list of privileged writes performed). -/
def enableBlocking (file : Option SiteBlockerConfig) :
    Except Str Unit × List (List Str) :=
  let config := (loadConfigC file).1
  if config.domains.length = 0 then
    (.error (str "No domains to block. Add some first."), [])
  else (.ok (), [config.domains])

/-- An access-log record (interface AccessLogEntry). -/
structure AccessLogEntry where
  domain : Str
  ts : Str
deriving DecidableEq

/-- isAccessLogEntry (site-blocker.ts lines 365-369) as a projection:
a non-null object presenting string domain and ts fields passes, all
other JSON values (arrays, primitives, null) fail. -/
def entryOf : Json → Option AccessLogEntry
  | .obj fields =>
    match lookupField fields (str "domain"), lookupField fields (str "ts") with
    | some (.str d), some (.str t) => some ⟨d, t⟩
    | _, _ => none
  | _ => none

/-- JS Array.prototype.map with a callback that may throw: the first
throw aborts the whole map (and propagates). -/
def jsMapThrow {α β : Type} (f : α → Option β) : List α → Option (List β)
  | [] => some []
  | x :: xs =>
    match f x with
    | none => none
    | some y => (jsMapThrow f xs).map (fun ys => y :: ys)

/-- The line-processing pipeline of parseJsonlAccessLog (lines 377-380):
filter(Boolean) keeps non-empty lines, each is JSON.parsed (one throw
kills the whole map), survivors are shape-filtered individually. -/
def parseJsonlLines (jp : Str → Option Json) (lines : List Str) :
    Option (List AccessLogEntry) :=
  (jsMapThrow jp (lines.filter (fun l => !l.isEmpty))).map
    (fun js => js.filterMap entryOf)

/-- Embedding of parseJsonlAccessLog (site-blocker.ts lines 371-381);
jp stands for the host JSON.parse, returning none where it would throw. -/
def parseJsonlAccessLog (jp : Str → Option Json) (raw : Str) :
    Option (List AccessLogEntry) :=
  if jsTrim raw = [] then some []
  else parseJsonlLines jp (splitLines (jsTrim raw))

/-- Embedding of parseLegacyJsonAccessLog (lines 383-389): one JSON.parse
of the whole file (a throw propagates), non-arrays yield [], array
elements are shape-filtered individually. -/
def parseLegacyJsonAccessLog (jp : Str → Option Json) (raw : Str) :
    Option (List AccessLogEntry) :=
  match jp raw with
  | none => none
  | some (.arr xs) => some (xs.filterMap entryOf)
  | some _ => some []

/-- The try-block of readAccessLog (lines 407-413): parse whichever files
exist and concatenate; any throw escapes to the catch. -/
def collectEntries (jp : Str → Option Json) (jsonl legacy : Option Str) :
    Option (List AccessLogEntry) :=
  let e1 := match jsonl with
    | none => some []
    | some raw => parseJsonlAccessLog jp raw
  let e2 := match legacy with
    | none => some []
    | some raw => parseLegacyJsonAccessLog jp raw
  match e1, e2 with
  | some a, some b => some (a ++ b)
  | _, _ => none

/-- The sort comparator of line 414, (new Date(a.ts) - new Date(b.ts)),
as a keep-or-move decision: dp is the host Date parser (none encodes an
invalid date, whose getTime is NaN); a NaN difference is treated by the
engine's sort like a zero comparator result, i.e. keep order. -/
def tsCmpLe (dp : Str → Option Int) (a b : AccessLogEntry) : Bool :=
  match dp a.ts, dp b.ts with
  | some x, some y => x ≤ y
  | _, _ => true

/-- Ordered insertion for the timestamp sort. -/
def insertEntry (dp : Str → Option Int) (x : AccessLogEntry) :
    List AccessLogEntry → List AccessLogEntry
  | [] => [x]
  | y :: ys => if tsCmpLe dp x y then x :: y :: ys else y :: insertEntry dp x ys

/-- Model of entries.sort(comparator) at line 414 (insertion sort; all
stated properties use only that the result is a permutation). -/
def sortByTs (dp : Str → Option Int) : List AccessLogEntry → List AccessLogEntry
  | [] => []
  | x :: xs => insertEntry dp x (sortByTs dp xs)

/-- Embedding of readAccessLog (site-blocker.ts lines 391-428) over
abstract file contents (none encodes an absent file), the host JSON and
Date parsers, the current time in milliseconds, and the optional days
argument.  A throw inside the try-block degrades the result to []; the
days filter keeps entries with parsed timestamp at least the cutoff
(a NaN timestamp never satisfies the comparison). -/
def readAccessLog (jp : Str → Option Json) (dp : Str → Option Int) (now : Int)
    (jsonl legacy : Option Str) (days : Option Int) : List AccessLogEntry :=
  if jsonl.isNone && legacy.isNone then []
  else
    match collectEntries jp jsonl legacy with
    | none => []
    | some entries =>
      let sorted := sortByTs dp entries
      match days with
      | none => sorted
      | some d =>
        sorted.filter (fun e =>
          match dp e.ts with
          | none => false
          | some t => t ≥ now - d * 86400 * 1000)

/-- Whether a JS number is a (mathematical) integer. -/
def jsIsInteger : JsNum → Bool
  | .num q => q.den = 1
  | _ => false

/-- Concrete stand-in for the host JSON.parse, agreeing with it on the
three line contents the concrete access-log instances use: a well-formed
record object, the numeric literal 5 (valid JSON, wrong shape), and
anything else (such as the line oops) a parse error. -/
def jpStub : Str → Option Json := fun s =>
  if s = str "\x7b\"domain\":\"a.com\",\"ts\":\"t1\"\x7d" then
    some (.obj [(str "domain", .str (str "a.com")), (str "ts", .str (str "t1"))])
  else if s = str "5" then some (.num 5)
  else none

/-- Concrete stand-in for the host Date parser on which no timestamp
string parses (t1 is not a valid date). -/
def dpStub : Str → Option Int := fun _ => none

deriving instance DecidableEq for Except

theorem dropSp_cons_of_not_space {c : Char} (cs : Str) (h : ¬ isSpace c) :
    dropSp (c :: cs) = c :: cs := by
  simp [dropSp, h]

theorem dropSp_idem (s : Str) : dropSp (dropSp s) = dropSp s := by
  induction s with
  | nil => rfl
  | cons c cs ih =>
    by_cases h : isSpace c
    · simp [dropSp, h, ih]
    · simp [dropSp, h]

theorem takeSp_append_dropSp (s : Str) : takeSp s ++ dropSp s = s := by
  induction s with
  | nil => rfl
  | cons c cs ih =>
    by_cases h : isSpace c
    · simp [takeSp, dropSp, h, ih]
    · simp [takeSp, dropSp, h]

theorem mem_takeSp {x : Char} {s : Str} (h : x ∈ takeSp s) : isSpace x := by
  induction s with
  | nil => simp [takeSp] at h
  | cons c cs ih =>
    by_cases hc : isSpace c
    · simp [takeSp, hc] at h
      rcases h with h | h
      · exact h ▸ hc
      · exact ih h

    · simp [takeSp, hc] at h

theorem mem_dropSp {x : Char} {s : Str} (h : x ∈ dropSp s) : x ∈ s := by
  induction s with
  | nil => simp [dropSp] at h
  | cons c cs ih =>
    by_cases hc : isSpace c
    · simp [dropSp, hc] at h
      exact List.mem_cons_of_mem _ (ih h)
    · simpa [dropSp, hc] using h

theorem dropSp_eq_nil_of_all_space {s : Str} (h : ∀ x ∈ s, isSpace x) :
    dropSp s = [] := by
  induction s with
  | nil => rfl
  | cons c cs ih =>
    have hc : isSpace c := h c (by simp)
    simp [dropSp, hc]
    exact ih fun x hx => h x (List.mem_cons_of_mem _ hx)

theorem dropSp_append_of_dropSp_eq_nil {a : Str} (b : Str)
    (h : dropSp a = []) : dropSp (a ++ b) = dropSp b := by
  induction a with
  | nil => rfl
  | cons c cs ih =>
    by_cases hc : isSpace c
    · simp [dropSp, hc] at h ⊢
      exact ih h
    · simp [dropSp, hc] at h

theorem dropSp_append_of_dropSp_ne_nil {a : Str} (b : Str)
    (h : dropSp a ≠ []) : dropSp (a ++ b) = dropSp a ++ b := by
  induction a with
  | nil => simp [dropSp] at h
  | cons c cs ih =>
    by_cases hc : isSpace c
    · simp [dropSp, hc] at h ⊢
      exact ih h
    · simp [dropSp, hc]

theorem jsTrimEnd_decomp (s : Str) :
    s = jsTrimEnd s ++ (takeSp s.reverse).reverse ∧
      (∀ x ∈ (takeSp s.reverse).reverse, isSpace x) := by
  constructor
  · conv_lhs => rw [← List.reverse_reverse s, ← takeSp_append_dropSp s.reverse]
    simp [jsTrimEnd]
  · intro x hx
    exact mem_takeSp (List.mem_reverse.mp hx)

theorem jsTrimEnd_append_space {w : Str} (a : Str)
    (hw : ∀ x ∈ w, isSpace x) : jsTrimEnd (a ++ w) = jsTrimEnd a := by
  unfold jsTrimEnd
  rw [List.reverse_append, dropSp_append_of_dropSp_eq_nil]
  exact dropSp_eq_nil_of_all_space fun x hx => hw x (List.mem_reverse.mp hx)

theorem jsTrimEnd_append_of_ne_nil {b : Str} (a : Str)
    (hb : jsTrimEnd b ≠ []) : jsTrimEnd (a ++ b) = a ++ jsTrimEnd b := by
  unfold jsTrimEnd at *
  have hb' : dropSp b.reverse ≠ [] := by
    intro h; exact hb (by simp [h])
  rw [List.reverse_append, dropSp_append_of_dropSp_ne_nil _ hb', List.reverse_append,
    List.reverse_reverse]

theorem jsTrimEnd_idem (s : Str) : jsTrimEnd (jsTrimEnd s) = jsTrimEnd s := by
  simp [jsTrimEnd, dropSp_idem]

theorem all_space_of_jsTrimEnd_eq_nil {s : Str} (h : jsTrimEnd s = []) :
    ∀ x ∈ s, isSpace x := by
  rcases jsTrimEnd_decomp s with ⟨hs, hw⟩
  intro x hx
  rw [hs, h, List.nil_append] at hx
  exact hw x hx

theorem jsTrimEnd_singleton (c : Char) :
    jsTrimEnd [c] = if isSpace c then [] else [c] := by
  by_cases h : isSpace c <;> simp [jsTrimEnd, dropSp, h]

theorem jsTrimEnd_cons (c : Char) (cs : Str) :
    jsTrimEnd (c :: cs) =
      if jsTrimEnd cs = [] then (if isSpace c then [] else [c])
      else c :: jsTrimEnd cs := by
  by_cases h : jsTrimEnd cs = []
  · have hall : ∀ x ∈ cs, isSpace x := all_space_of_jsTrimEnd_eq_nil h
    have : jsTrimEnd ([c] ++ cs) = jsTrimEnd [c] := jsTrimEnd_append_space [c] hall
    simpa [h, jsTrimEnd_singleton] using this
  · have : jsTrimEnd ([c] ++ cs) = [c] ++ jsTrimEnd cs :=
      jsTrimEnd_append_of_ne_nil [c] h
    simpa [h] using this

theorem jsTrimEnd_dropSp_comm (s : Str) :
    jsTrimEnd (dropSp s) = dropSp (jsTrimEnd s) := by
  induction s with
  | nil => rfl
  | cons c cs ih =>
    by_cases hc : isSpace c
    · by_cases h : jsTrimEnd cs = []
      · simp [dropSp, hc, jsTrimEnd_cons, h, ih]
      · simp [dropSp, hc, jsTrimEnd_cons, h, ih]
    · by_cases h : jsTrimEnd cs = []
      · simp [dropSp, hc, jsTrimEnd_cons, h, jsTrimEnd_singleton]
      · simp [dropSp, hc, jsTrimEnd_cons, h, ih]

theorem jsTrim_idem (s : Str) : jsTrim (jsTrim s) = jsTrim s := by
  unfold jsTrim
  rw [jsTrimEnd_dropSp_comm, jsTrimEnd_idem, dropSp_idem]

theorem mem_jsTrimEnd {x : Char} {s : Str} (h : x ∈ jsTrimEnd s) : x ∈ s := by
  unfold jsTrimEnd at h
  have := mem_dropSp (List.mem_reverse.mp h)
  exact List.mem_reverse.mp this

theorem mem_jsTrim {x : Char} {s : Str} (h : x ∈ jsTrim s) : x ∈ s :=
  mem_jsTrimEnd (mem_dropSp h)

theorem jsTrim_cons_of_not_space {c : Char} (cs : Str) (h : ¬ isSpace c) :
    jsTrim (c :: cs) = c :: jsTrimEnd cs := by
  unfold jsTrim
  rw [jsTrimEnd_cons]
  by_cases hnil : jsTrimEnd cs = []
  · simp [hnil, h, dropSp]
  · simp [hnil, dropSp, h]

theorem char_le_iff_toNat {a b : Char} : a ≤ b ↔ a.toNat ≤ b.toNat := by
  rw [Char.le_def, UInt32.le_def, BitVec.le_def]
  rfl

theorem toNat_ofNat_small (n : Nat) (h : n < 55296) : (Char.ofNat n).toNat = n := by
  rw [Char.ofNat, dif_pos (Or.inl h)]
  rfl

theorem lowerChar_idem (c : Char) : lowerChar (lowerChar c) = lowerChar c := by
  by_cases h : 'A' ≤ c ∧ c ≤ 'Z'
  · have h1 : 65 ≤ c.toNat := char_le_iff_toNat.mp h.1
    have h2 : c.toNat ≤ 90 := char_le_iff_toNat.mp h.2
    unfold lowerChar
    rw [if_pos h]
    have ht : (Char.ofNat (c.toNat + 32)).toNat = c.toNat + 32 :=
      toNat_ofNat_small _ (by omega)
    rw [if_neg]
    intro hcon
    have h3 := char_le_iff_toNat.mp hcon.2
    rw [ht] at h3
    have hz : ('Z').toNat = 90 := by decide
    omega
  · unfold lowerChar
    rw [if_neg h, if_neg h]

theorem eq_slash_of_lowerChar_eq_slash {c : Char} (h : lowerChar c = '/') :
    c = '/' := by
  unfold lowerChar at h
  by_cases hc : 'A' ≤ c ∧ c ≤ 'Z'
  · rw [if_pos hc] at h
    have h1 : 65 ≤ c.toNat := char_le_iff_toNat.mp hc.1
    have h2 : c.toNat ≤ 90 := char_le_iff_toNat.mp hc.2
    have ht : (Char.ofNat (c.toNat + 32)).toNat = c.toNat + 32 :=
      toNat_ofNat_small _ (by omega)
    rw [h] at ht
    have : ('/').toNat = 47 := by decide
    omega
  · rwa [if_neg hc] at h

theorem mem_of_hasPre {p s : Str} (h : hasPre p s = true) :
    ∀ x ∈ p, x ∈ s := by
  induction p generalizing s with
  | nil => intro x hx; simp at hx
  | cons a as ih =>
    cases s with
    | nil => simp [hasPre] at h
    | cons b bs =>
      simp [hasPre] at h
      intro x hx
      rcases List.mem_cons.mp hx with hx | hx
      · exact hx ▸ h.1 ▸ List.mem_cons_self _ _
      · exact List.mem_cons_of_mem _ (ih h.2 x hx)

theorem takeWhile_all {p : Char → Bool} {l : Str} (h : ∀ x ∈ l, p x) :
    l.takeWhile p = l := by
  induction l with
  | nil => rfl
  | cons c cs ih =>
    have hc : p c := h c (by simp)
    simp [List.takeWhile, hc]
    intro x hx
    exact h x (List.mem_cons_of_mem _ hx)

theorem mem_of_mem_takeWhile {p : Char → Bool} {l : Str} {x : Char}
    (h : x ∈ l.takeWhile p) : x ∈ l ∧ p x := by
  induction l with
  | nil => simp [List.takeWhile] at h
  | cons c cs ih =>
    by_cases hc : p c
    · simp [List.takeWhile, hc] at h
      rcases h with h | h
      · exact ⟨h ▸ List.mem_cons_self _ _, h ▸ hc⟩
      · exact ⟨List.mem_cons_of_mem _ (ih h).1, (ih h).2⟩
    · simp [List.takeWhile, hc] at h

theorem map_eq_self_of_fix {f : Char → Char} {l : Str}
    (h : ∀ x ∈ l, f x = x) : l.map f = l := by
  induction l with
  | nil => rfl
  | cons c cs ih =>
    simp [h c (by simp)]
    exact ih fun x hx => h x (List.mem_cons_of_mem _ hx)

theorem normalizeDomain_ok_shape {x r : Str} (h : normalizeDomain x = .ok r) :
    r = canonPipeline (jsTrim x) ∧ '.' ∈ r ∧ jsTrim x ≠ [] := by
  unfold normalizeDomain at h
  by_cases h0 : jsTrim x = []
  · simp [h0] at h
  · rw [if_neg h0] at h
    simp only [canonPipeline] at *
    by_cases h1 : '.' ∈ jsTrim ((List.takeWhile (fun c => c ≠ '/')
        (stripPre (str "www.") (stripScheme (jsTrim x)))).map lowerChar)
    · rw [if_pos h1] at h
      cases h
      exact ⟨rfl, h1, h0⟩
    · rw [if_neg h1] at h
      cases h

theorem no_slash_of_canon {d : Str} {x : Char} (hx : x ∈ canonPipeline d) :
    x ≠ '/' := by
  intro hslash
  subst hslash
  have h1 := mem_jsTrim hx
  rcases List.mem_map.mp h1 with ⟨y, hy, hmap⟩
  have hy' := (mem_of_mem_takeWhile hy).2
  simp at hy'
  exact hy' (eq_slash_of_lowerChar_eq_slash hmap)

theorem canon_fix {r : Str} (hshape : ∃ d, r = canonPipeline d)
    (hdot : '.' ∈ r) (hw : ¬ hasPre (str "www.") r = true) :
    normalizeDomain r = .ok r := by
  rcases hshape with ⟨d, hd⟩
  have hslash : ∀ x ∈ r, x ≠ '/' := by
    intro x hx
    rw [hd] at hx
    exact no_slash_of_canon hx
  have htrim : jsTrim r = r := by rw [hd]; exact jsTrim_idem _
  have hne : r ≠ [] := by
    intro hnil; rw [hnil] at hdot; simp at hdot
  have hscheme : stripScheme r = r := by
    unfold stripScheme
    have hh : ¬ hasPre (str "https://") r = true := by
      intro hp
      exact hslash '/' (mem_of_hasPre hp '/' (by decide)) rfl
    have hh2 : ¬ hasPre (str "http://") r = true := by
      intro hp
      exact hslash '/' (mem_of_hasPre hp '/' (by decide)) rfl
    rw [if_neg hh, if_neg hh2]
  have hwww : stripPre (str "www.") r = r := by
    unfold stripPre
    rw [if_neg hw]
  have htake : List.takeWhile (fun c => c ≠ '/') r = r := by
    apply takeWhile_all
    intro x hx
    simp
    exact hslash x hx
  have hmap : r.map lowerChar = r := by
    apply map_eq_self_of_fix
    intro x hx
    rw [hd] at hx
    have h1 := mem_jsTrim hx
    rcases List.mem_map.mp h1 with ⟨y, _, hmapy⟩
    rw [← hmapy, lowerChar_idem]
  unfold normalizeDomain
  rw [htrim, if_neg hne, hscheme]
  simp only [hwww, htake, hmap, htrim]
  rw [if_pos hdot]

theorem addLoop_invariant {ds doms acc doms' acc' : List Str}
    (h : addLoop ds doms acc = .ok (doms', acc')) :
    ∃ new, doms' = doms ++ new ∧ acc' = acc ++ new ∧
      (∀ d ∈ new, d ∉ doms) ∧ new.Nodup ∧
      (∀ raw ∈ ds, ∃ nd, normalizeDomain raw = .ok nd ∧ nd ∈ doms') := by
  induction ds generalizing doms acc with
  | nil =>
    refine ⟨[], ?_, ?_, by simp, by simp, by simp⟩ <;>
      · simp [addLoop] at h
        simp [h.1.symm, h.2.symm]
  | cons raw rest ih =>
    cases hn : normalizeDomain raw with
    | error e =>
      simp only [addLoop, hn] at h
      cases h
    | ok d =>
      simp only [addLoop, hn] at h
      by_cases hmem : d ∈ doms
      · rw [if_pos hmem] at h
        rcases ih h with ⟨new, h1, h2, h3, h4, h5⟩
        refine ⟨new, h1, h2, h3, h4, ?_⟩
        intro r hr
        rcases List.mem_cons.mp hr with hr | hr
        · exact ⟨d, hr ▸ hn, h1 ▸ List.mem_append_left _ hmem⟩
        · exact h5 r hr
      · rw [if_neg hmem] at h
        rcases ih h with ⟨new', h1, h2, h3, h4, h5⟩
        refine ⟨d :: new', by simp [h1], by simp [h2], ?_, ?_, ?_⟩
        · intro x hx
          rcases List.mem_cons.mp hx with hx | hx
          · exact hx ▸ hmem
          · intro hc
            exact h3 x hx (List.mem_append_left _ hc)
        · refine List.nodup_cons.mpr ⟨?_, h4⟩
          intro hc
          have := h3 d hc
          simp at this
        · intro r hr
          rcases List.mem_cons.mp hr with hr | hr
          · refine ⟨d, hr ▸ hn, ?_⟩
            rw [h1]
            exact List.mem_append_left _ (List.mem_append_right _ (by simp))
          · exact h5 r hr

theorem addLoop_all_present {ds doms acc : List Str}
    (h : ∀ raw ∈ ds, ∃ nd, normalizeDomain raw = .ok nd ∧ nd ∈ doms) :
    addLoop ds doms acc = .ok (doms, acc) := by
  induction ds with
  | nil => rfl
  | cons raw rest ih =>
    rcases h raw (by simp) with ⟨nd, hn, hmem⟩
    simp only [addLoop, hn, if_pos hmem]
    exact ih fun r hr => h r (List.mem_cons_of_mem _ hr)

theorem splitLines_ne_nil (s : Str) : splitLines s ≠ [] := by
  cases s with
  | nil => simp [splitLines]
  | cons c cs =>
    by_cases h : c = '\n'
    · simp [splitLines, h]
    · simp only [splitLines, if_neg h]
      cases splitLines cs <;> simp

theorem splitLines_append_nl (a b : Str) :
    splitLines (a ++ '\n' :: b) = splitLines a ++ splitLines b := by
  induction a with
  | nil => simp [splitLines]
  | cons c cs ih =>
    by_cases h : c = '\n'
    · simp [splitLines, h, ih]
    · simp only [List.cons_append, splitLines, if_neg h]
      cases hcs : splitLines cs with
      | nil => exact absurd hcs (splitLines_ne_nil cs)
      | cons l ls => rw [List.append_eq, ih, hcs]; rfl

theorem not_nl_of_mem_splitLines {s : Str} {l : Str} (hl : l ∈ splitLines s) :
    '\n' ∉ l := by
  induction s generalizing l with
  | nil =>
    simp [splitLines] at hl
    simp [hl]
  | cons c cs ih =>
    by_cases h : c = '\n'
    · simp [splitLines, h] at hl
      rcases hl with hl | hl
      · simp [hl]
      · exact ih hl
    · simp only [splitLines, if_neg h] at hl
      cases hcs : splitLines cs with
      | nil => exact absurd hcs (splitLines_ne_nil cs)
      | cons t ts =>
        rw [hcs] at hl
        rcases List.mem_cons.mp hl with hl | hl
        · subst hl
          intro hmem
          rcases List.mem_cons.mp hmem with hmem | hmem
          · exact h hmem.symm
          · exact ih (hcs ▸ List.mem_cons_self t ts) hmem
        · exact ih (hcs ▸ List.mem_cons_of_mem t hl)

theorem splitLines_of_not_nl {l : Str} (h : '\n' ∉ l) : splitLines l = [l] := by
  induction l with
  | nil => rfl
  | cons c cs ih =>
    have hc : c ≠ '\n' := fun hcc => h (hcc ▸ List.mem_cons_self c cs)
    have hcs : '\n' ∉ cs := fun hmem => h (List.mem_cons_of_mem c hmem)
    simp only [splitLines, if_neg hc, ih hcs]

theorem joinLines_cons (l : Str) {ls : List Str} (h : ls ≠ []) :
    joinLines (l :: ls) = l ++ '\n' :: joinLines ls := by
  cases ls with
  | nil => exact absurd rfl h
  | cons m ms => rfl

theorem splitLines_joinLines {ls : List Str}
    (hnl : ∀ l ∈ ls, '\n' ∉ l) (hne : ls ≠ []) :
    splitLines (joinLines ls) = ls := by
  induction ls with
  | nil => exact absurd rfl hne
  | cons l rest ih =>
    cases rest with
    | nil => exact splitLines_of_not_nl (hnl l (by simp))
    | cons m ms =>
      rw [joinLines_cons l (by simp), splitLines_append_nl]
      rw [splitLines_of_not_nl (hnl l (by simp)),
        ih (fun x hx => hnl x (List.mem_cons_of_mem _ hx)) (by simp)]
      rfl

theorem joinLines_append_last (K₀ : List Str) (lst : Str) (h : K₀ ≠ []) :
    joinLines (K₀ ++ [lst]) = joinLines K₀ ++ '\n' :: lst := by
  induction K₀ with
  | nil => exact absurd rfl h
  | cons a as ih =>
    cases as with
    | nil => rfl
    | cons b bs =>
      rw [List.cons_append, joinLines_cons a (by simp),
        joinLines_cons a (by simp), ih (by simp)]
      simp

theorem notMarker_of_mem_removeBlockLines {b : Bool} {ls : List Str} :
    ∀ l ∈ removeBlockLines b ls, NotMarker l := by
  induction ls generalizing b with
  | nil => intro l hl; simp [removeBlockLines] at hl
  | cons x xs ih =>
    intro l hl
    by_cases h1 : jsTrim x = MARKER_BEGIN
    · rw [removeBlockLines, if_pos h1] at hl
      exact ih l hl
    · by_cases h2 : jsTrim x = MARKER_END
      · rw [removeBlockLines, if_neg h1, if_pos h2] at hl
        exact ih l hl
      · cases b with
        | true =>
          rw [removeBlockLines, if_neg h1, if_neg h2, if_pos rfl] at hl
          exact ih l hl
        | false =>
          simp only [removeBlockLines, if_neg h1, if_neg h2, if_neg (by decide : ¬((false : Bool) = true))] at hl
          rcases List.mem_cons.mp hl with hl | hl
          · exact hl ▸ ⟨h1, h2⟩
          · exact ih l hl

theorem mem_of_mem_removeBlockLines {b : Bool} {ls : List Str} :
    ∀ l ∈ removeBlockLines b ls, l ∈ ls := by
  induction ls generalizing b with
  | nil => intro l hl; simp [removeBlockLines] at hl
  | cons x xs ih =>
    intro l hl
    by_cases h1 : jsTrim x = MARKER_BEGIN
    · rw [removeBlockLines, if_pos h1] at hl
      exact List.mem_cons_of_mem _ (ih l hl)
    · by_cases h2 : jsTrim x = MARKER_END
      · rw [removeBlockLines, if_neg h1, if_pos h2] at hl
        exact List.mem_cons_of_mem _ (ih l hl)
      · cases b with
        | true =>
          rw [removeBlockLines, if_neg h1, if_neg h2, if_pos rfl] at hl
          exact List.mem_cons_of_mem _ (ih l hl)
        | false =>
          simp only [removeBlockLines, if_neg h1, if_neg h2, if_neg (by decide : ¬((false : Bool) = true))] at hl
          rcases List.mem_cons.mp hl with hl | hl
          · exact hl ▸ List.mem_cons_self _ _
          · exact List.mem_cons_of_mem _ (ih l hl)

theorem mem_of_mem_dropBlanks {ls : List Str} :
    ∀ l ∈ dropBlanks ls, l ∈ ls := by
  induction ls with
  | nil => intro l hl; simp [dropBlanks] at hl
  | cons x xs ih =>
    intro l hl
    by_cases h : jsTrim x = []
    · rw [dropBlanks, if_pos h] at hl
      exact List.mem_cons_of_mem _ (ih l hl)
    · rwa [dropBlanks, if_neg h] at hl

theorem mem_of_mem_dropTrailingBlankLines {ls : List Str} :
    ∀ l ∈ dropTrailingBlankLines ls, l ∈ ls := by
  intro l hl
  unfold dropTrailingBlankLines at hl
  have := mem_of_mem_dropBlanks _ (List.mem_reverse.mp hl)
  exact List.mem_reverse.mp this

theorem dropBlanks_head {ls : List Str} :
    dropBlanks ls = [] ∨
      ∃ hd tl, dropBlanks ls = hd :: tl ∧ jsTrim hd ≠ [] := by
  induction ls with
  | nil => exact Or.inl rfl
  | cons x xs ih =>
    by_cases h : jsTrim x = []
    · rw [dropBlanks, if_pos h]
      exact ih
    · rw [dropBlanks, if_neg h]
      exact Or.inr ⟨x, xs, rfl, h⟩

theorem dropTrailingBlankLines_last {ls : List Str} :
    dropTrailingBlankLines ls = [] ∨
      ∃ K₀ lst, dropTrailingBlankLines ls = K₀ ++ [lst] ∧ jsTrim lst ≠ [] := by
  unfold dropTrailingBlankLines
  rcases @dropBlanks_head ls.reverse with h | ⟨hd, tl, h, hne⟩
  · rw [h]
    exact Or.inl rfl
  · rw [h]
    exact Or.inr ⟨tl.reverse, hd, by simp, hne⟩

/-- Core invariant: stripping the block leaves no marker lines, whatever
the input content was. -/
theorem parseHostsRemoveBlock_no_markers (content : Str) :
    ∀ l ∈ splitLines (parseHostsRemoveBlock content), NotMarker l := by
  intro l hl
  unfold parseHostsRemoveBlock at hl
  set K := dropTrailingBlankLines (removeBlockLines false (splitLines content)) with hK
  have hKsub : ∀ x ∈ K, NotMarker x := by
    intro x hx
    exact notMarker_of_mem_removeBlockLines x (mem_of_mem_dropTrailingBlankLines x hx)
  have hKnl : ∀ x ∈ K, '\n' ∉ x := by
    intro x hx
    have h1 := mem_of_mem_removeBlockLines x (mem_of_mem_dropTrailingBlankLines x hx)
    exact not_nl_of_mem_splitLines h1
  have hnilMarker : NotMarker ([] : Str) := by
    constructor <;> decide
  by_cases hKnil : K = []
  · rw [hKnil] at hl
    simp only [joinLines, List.nil_append] at hl
    have : splitLines ['\n'] = [[], []] := by decide
    rw [show ('\n' :: ([] : Str)) = ['\n'] from rfl, this] at hl
    rcases List.mem_cons.mp hl with hl | hl
    · exact hl ▸ hnilMarker
    · simp at hl
      exact hl ▸ hnilMarker
  · have : splitLines (joinLines K ++ '\n' :: []) = K ++ [[]] := by
      rw [splitLines_append_nl, splitLines_joinLines hKnl hKnil]
      rfl
    rw [show (['\n'] : Str) = '\n' :: [] from rfl, this] at hl
    rcases List.mem_append.mp hl with hl | hl
    · exact hKsub l hl
    · simp at hl
      exact hl ▸ hnilMarker

theorem notMarker_nil : NotMarker ([] : Str) := by
  constructor <;> decide

theorem notMarker_jsTrimEnd {l : Str} (h : NotMarker l) : NotMarker (jsTrimEnd l) := by
  have heq : jsTrim (jsTrimEnd l) = jsTrim l := by
    unfold jsTrim
    rw [jsTrimEnd_idem]
  unfold NotMarker
  rw [heq]
  exact h

theorem collectBlock_skip {P rest : List Str}
    (hP : ∀ l ∈ P, NotMarker l) :
    collectBlock false (P ++ rest) = collectBlock false rest := by
  induction P with
  | nil => rfl
  | cons x xs ih =>
    have hx := hP x (by simp)
    simp only [List.cons_append, collectBlock, if_neg hx.1, if_neg hx.2,
      if_neg (by decide : ¬((false : Bool) = true))]
    exact ih fun l hl => hP l (List.mem_cons_of_mem _ hl)

theorem collectBlock_in {body rest : List Str}
    (hbody : ∀ l ∈ body, NotMarker l) :
    collectBlock true (body ++ rest) = body ++ collectBlock true rest := by
  induction body with
  | nil => rfl
  | cons x xs ih =>
    have hx := hbody x (by simp)
    have ih' := ih fun l hl => hbody l (List.mem_cons_of_mem _ hl)
    simp [collectBlock, hx.1, hx.2, ih']

theorem collectBlock_block {body rest : List Str}
    (hbody : ∀ l ∈ body, NotMarker l) :
    collectBlock false (MARKER_BEGIN :: (body ++ MARKER_END :: rest)) =
      body ++ collectBlock false rest := by
  have hmb : jsTrim MARKER_BEGIN = MARKER_BEGIN := by decide
  have hme : jsTrim MARKER_END = MARKER_END := by decide
  have hne : jsTrim MARKER_END ≠ MARKER_BEGIN := by decide
  rw [collectBlock, if_pos hmb]
  rw [show body ++ MARKER_END :: rest = body ++ (MARKER_END :: rest) from rfl,
    collectBlock_in hbody, collectBlock, if_neg hne, if_pos hme]

/-- Every line of the trimmed-at-the-end stripped base is a non-marker
line: the managed-block scanner finds nothing in the preserved prefix. -/
theorem notMarker_splitLines_jsTrimEnd_parse (content : Str) :
    ∀ l ∈ splitLines (jsTrimEnd (parseHostsRemoveBlock content)), NotMarker l := by
  unfold parseHostsRemoveBlock
  set M := removeBlockLines false (splitLines content) with hM
  have hKsub : ∀ x ∈ dropTrailingBlankLines M, NotMarker x := fun x hx =>
    notMarker_of_mem_removeBlockLines x (mem_of_mem_dropTrailingBlankLines x hx)
  have hKnl : ∀ x ∈ dropTrailingBlankLines M, '\n' ∉ x := fun x hx =>
    not_nl_of_mem_splitLines
      (mem_of_mem_removeBlockLines x (mem_of_mem_dropTrailingBlankLines x hx))
  rcases @dropTrailingBlankLines_last M with hK | ⟨K₀, lst, hK, hlst⟩
  · rw [hK]
    intro l hl
    have : splitLines (jsTrimEnd (joinLines [] ++ ['\n'])) = [[]] := by decide
    rw [this] at hl
    simp at hl
    exact hl ▸ notMarker_nil
  · rw [hK]
    have hlstK : lst ∈ dropTrailingBlankLines M := by
      rw [hK]
      simp
    have hlstNM : NotMarker lst := hKsub lst hlstK
    have hlstNl : '\n' ∉ lst := hKnl lst hlstK
    have htnil : jsTrimEnd lst ≠ [] := by
      intro hnil
      apply hlst
      unfold jsTrim
      rw [hnil]
      rfl
    have hdropNl : jsTrimEnd (joinLines (K₀ ++ [lst]) ++ ['\n']) =
        jsTrimEnd (joinLines (K₀ ++ [lst])) :=
      jsTrimEnd_append_space _ (by intro x hx; simp at hx; subst hx; decide)
    by_cases hK0 : K₀ = []
    · intro l hl
      rw [hK0] at hdropNl hl
      simp only [List.nil_append] at hdropNl hl
      rw [hdropNl] at hl
      rw [show joinLines [lst] = lst from rfl] at hl
      rw [splitLines_of_not_nl (fun hmem => hlstNl (mem_jsTrimEnd hmem))] at hl
      simp at hl
      exact hl ▸ notMarker_jsTrimEnd hlstNM
    · intro l hl
      rw [hdropNl] at hl
      have hjoin : joinLines (K₀ ++ [lst]) = (joinLines K₀ ++ ['\n']) ++ lst := by
        rw [joinLines_append_last K₀ lst hK0]
        simp
      rw [hjoin, jsTrimEnd_append_of_ne_nil _ htnil] at hl
      have hT : (joinLines K₀ ++ ['\n']) ++ jsTrimEnd lst =
          joinLines (K₀ ++ [jsTrimEnd lst]) := by
        rw [joinLines_append_last K₀ _ hK0]
        simp
      rw [hT] at hl
      have hmemK : ∀ x ∈ K₀ ++ [jsTrimEnd lst], '\n' ∉ x := by
        intro x hx
        rcases List.mem_append.mp hx with hx | hx
        · exact hKnl x (by rw [hK]; exact List.mem_append_left _ hx)
        · simp at hx
          subst hx
          exact fun hmem => hlstNl (mem_jsTrimEnd hmem)
      rw [splitLines_joinLines hmemK (by simp)] at hl
      rcases List.mem_append.mp hl with hl | hl
      · exact hKsub l (by rw [hK]; exact List.mem_append_left _ hl)
      · simp at hl
        exact hl ▸ notMarker_jsTrimEnd hlstNM

theorem strLe_cons_iff {a b : Char} {as bs : Str} :
    strLe (a :: as) (b :: bs) = true ↔
      a.toNat < b.toNat ∨ (a.toNat = b.toNat ∧ strLe as bs = true) := by
  rw [show strLe (a :: as) (b :: bs) =
    (if a.toNat < b.toNat then true
     else if b.toNat < a.toNat then false else strLe as bs) from rfl]
  by_cases h1 : a.toNat < b.toNat
  · simp [h1]
  · by_cases h2 : b.toNat < a.toNat
    · rw [if_neg h1, if_pos h2]
      simp only [Bool.false_eq_true, false_iff]
      intro hc
      rcases hc with hc | ⟨hc, _⟩ <;> omega
    · rw [if_neg h1, if_neg h2]
      constructor
      · intro hr
        exact Or.inr ⟨by omega, hr⟩
      · intro hc
        rcases hc with hc | ⟨_, hr⟩
        · omega
        · exact hr

theorem strLe_total (a b : Str) : strLe a b = true ∨ strLe b a = true := by
  induction a generalizing b with
  | nil => exact Or.inl rfl
  | cons x xs ih =>
    cases b with
    | nil => exact Or.inr rfl
    | cons y ys =>
      rcases Nat.lt_trichotomy x.toNat y.toNat with h | h | h
      · exact Or.inl (strLe_cons_iff.mpr (Or.inl h))
      · rcases ih ys with hr | hr
        · exact Or.inl (strLe_cons_iff.mpr (Or.inr ⟨h, hr⟩))
        · exact Or.inr (strLe_cons_iff.mpr (Or.inr ⟨h.symm, hr⟩))
      · exact Or.inr (strLe_cons_iff.mpr (Or.inl h))

theorem strLe_trans {a b c : Str} (hab : strLe a b = true)
    (hbc : strLe b c = true) : strLe a c = true := by
  induction a generalizing b c with
  | nil => rfl
  | cons x xs ih =>
    cases b with
    | nil => cases hab
    | cons y ys =>
      cases c with
      | nil => cases hbc
      | cons z zs =>
        rcases strLe_cons_iff.mp hab with h1 | ⟨h1, h1'⟩ <;>
          rcases strLe_cons_iff.mp hbc with h2 | ⟨h2, h2'⟩
        · exact strLe_cons_iff.mpr (Or.inl (by omega))
        · exact strLe_cons_iff.mpr (Or.inl (by omega))
        · exact strLe_cons_iff.mpr (Or.inl (by omega))
        · exact strLe_cons_iff.mpr (Or.inr ⟨by omega, ih h1' h2'⟩)

theorem mem_insertLe {x y : Str} {l : List Str} :
    y ∈ insertLe x l ↔ y = x ∨ y ∈ l := by
  induction l with
  | nil => simp [insertLe]
  | cons z zs ih =>
    by_cases h : strLe x z = true
    · simp [insertLe, h]
    · simp [insertLe, h, ih]
      tauto

theorem insertLe_perm (x : Str) (l : List Str) :
    List.Perm (insertLe x l) (x :: l) := by
  induction l with
  | nil => rfl
  | cons z zs ih =>
    by_cases h : strLe x z = true
    · simp [insertLe, h]
    · simp only [insertLe, if_neg h]
      exact (List.Perm.cons z ih).trans (List.Perm.swap x z zs)

theorem jsSort_perm (l : List Str) : List.Perm (jsSort l) l := by
  induction l with
  | nil => rfl
  | cons x xs ih =>
    exact ((insertLe_perm x (jsSort xs)).trans (List.Perm.cons x ih))

theorem insertLe_sorted {x : Str} {l : List Str}
    (h : List.Sorted strLeP l) : List.Sorted strLeP (insertLe x l) := by
  induction l with
  | nil => simp [insertLe, List.Sorted]
  | cons z zs ih =>
    rcases List.sorted_cons.mp h with ⟨hz, hzs⟩
    by_cases hle : strLe x z = true
    · rw [insertLe, if_pos hle]
      refine List.sorted_cons.mpr ⟨?_, h⟩
      intro b hb
      rcases List.mem_cons.mp hb with hb | hb
      · exact hb ▸ hle
      · exact strLe_trans hle (hz b hb)
    · rw [insertLe, if_neg hle]
      refine List.sorted_cons.mpr ⟨?_, ih hzs⟩
      intro b hb
      rcases mem_insertLe.mp hb with hb | hb
      · rcases strLe_total x z with hc | hc
        · exact absurd hc hle
        · exact hb ▸ hc
      · exact hz b hb

theorem jsSort_sorted (l : List Str) : List.Sorted strLeP (jsSort l) := by
  induction l with
  | nil => simp [jsSort, List.Sorted]
  | cons x xs ih => exact insertLe_sorted ih

theorem notMarker_cons {c : Char} {t : Str} (hsp : ¬ isSpace c = true)
    (hph : c ≠ '#') : NotMarker (c :: t) := by
  unfold NotMarker
  rw [jsTrim_cons_of_not_space t hsp]
  constructor
  · intro hcon
    have h1 : List.head? (c :: jsTrimEnd t) = List.head? MARKER_BEGIN :=
      congrArg _ hcon
    rw [show List.head? MARKER_BEGIN = some '#' from rfl] at h1
    simp at h1
    exact hph h1
  · intro hcon
    have h1 : List.head? (c :: jsTrimEnd t) = List.head? MARKER_END :=
      congrArg _ hcon
    rw [show List.head? MARKER_END = some '#' from rfl] at h1
    simp at h1
    exact hph h1

theorem mem_domainLines {l d : Str} (h : l ∈ domainLines d) :
    l = loopbackLine d ∨ l = loopbackWwwLine d := by
  unfold domainLines at h
  by_cases hp : hasPre (str "www.") d = true
  · rw [if_pos hp] at h
    simp at h
    exact Or.inl h
  · rw [if_neg hp] at h
    simp at h
    exact h

theorem notMarker_of_mem_body {sds : List Str} :
    ∀ l ∈ sds.flatMap domainLines, NotMarker l := by
  intro l hl
  rcases List.mem_flatMap.mp hl with ⟨d, _, hld⟩
  rcases mem_domainLines hld with h | h <;>
  · subst h
    exact notMarker_cons (by decide) (by decide)

theorem not_nl_of_mem_body {sds : List Str}
    (hnl : ∀ d ∈ sds, '\n' ∉ d) :
    ∀ l ∈ sds.flatMap domainLines, '\n' ∉ l := by
  intro l hl
  rcases List.mem_flatMap.mp hl with ⟨d, hd, hld⟩
  rcases mem_domainLines hld with h | h <;>
  · subst h
    intro hmem
    rcases List.mem_append.mp hmem with hmem | hmem
    · revert hmem
      decide
    · exact hnl d hd hmem

/-- The managed block of freshly built content consists precisely of the
override lines of the sorted domains, provided the domains contain no
newline characters. -/
theorem managedBlockLines_build {h : Str} {ds : List Str} (hne : ds ≠ [])
    (hnl : ∀ d ∈ ds, '\n' ∉ d) :
    managedBlockLines (buildHostsContent h ds) = (jsSort ds).flatMap domainLines := by
  have hnl' : ∀ d ∈ jsSort ds, '\n' ∉ d := fun d hd =>
    hnl d ((jsSort_perm ds).mem_iff.mp hd)
  set body := (jsSort ds).flatMap domainLines with hbody
  have hbodyNM : ∀ l ∈ body, NotMarker l := notMarker_of_mem_body
  have hbodyNl : ∀ l ∈ body, '\n' ∉ l := not_nl_of_mem_body hnl'
  have hblNl : ∀ l ∈ blockLinesFor (jsSort ds), '\n' ∉ l := by
    intro l hl
    unfold blockLinesFor at hl
    rcases List.mem_cons.mp hl with hl | hl
    · subst hl
      decide
    · rcases List.mem_append.mp hl with hl | hl
      · exact hbodyNl l hl
      · simp at hl
        subst hl
        decide
  unfold managedBlockLines buildHostsContent
  rw [if_neg hne]
  rw [splitLines_append_nl]
  rw [show splitLines ('\n' :: (joinLines (blockLinesFor (jsSort ds)) ++ ['\n'])) =
    [] :: splitLines (joinLines (blockLinesFor (jsSort ds)) ++ ['\n']) by
      simp [splitLines]]
  rw [show (['\n'] : Str) = '\n' :: [] from rfl, splitLines_append_nl,
    splitLines_joinLines hblNl (by simp [blockLinesFor])]
  rw [collectBlock_skip (notMarker_splitLines_jsTrimEnd_parse h)]
  rw [show ([] : Str) :: (blockLinesFor (jsSort ds) ++ splitLines []) =
    [([] : Str)] ++ (blockLinesFor (jsSort ds) ++ splitLines []) from rfl]
  rw [collectBlock_skip (by intro l hl; simp at hl; exact hl ▸ notMarker_nil)]
  rw [show blockLinesFor (jsSort ds) ++ splitLines [] =
    MARKER_BEGIN :: (body ++ (MARKER_END :: splitLines [])) by
      simp [blockLinesFor, hbody]]
  rw [collectBlock_block hbodyNM]
  rw [show collectBlock false (splitLines []) = [] from rfl]
  simp

theorem mem_insertEntry {dp : Str → Option Int} {x y : AccessLogEntry}
    {l : List AccessLogEntry} :
    y ∈ insertEntry dp x l ↔ y = x ∨ y ∈ l := by
  induction l with
  | nil => simp [insertEntry]
  | cons z zs ih =>
    by_cases h : tsCmpLe dp x z = true
    · simp [insertEntry, h]
    · simp [insertEntry, h, ih]
      tauto

theorem mem_sortByTs {dp : Str → Option Int} {y : AccessLogEntry}
    {l : List AccessLogEntry} :
    y ∈ sortByTs dp l ↔ y ∈ l := by
  induction l with
  | nil => simp [sortByTs]
  | cons x xs ih =>
    simp [sortByTs, mem_insertEntry, ih]

theorem jsMapThrow_append {α β : Type} (f : α → Option β) (xs ys : List α) :
    jsMapThrow f (xs ++ ys) =
      match jsMapThrow f xs, jsMapThrow f ys with
      | some a, some b => some (a ++ b)
      | _, _ => none := by
  induction xs with
  | nil =>
    simp only [List.nil_append, jsMapThrow]
    cases jsMapThrow f ys <;> rfl
  | cons x xs ih =>
    simp only [List.cons_append, jsMapThrow, List.append_eq]
    cases hf : f x with
    | none => rfl
    | some y =>
      rw [ih]
      cases jsMapThrow f xs <;> cases jsMapThrow f ys <;> rfl

theorem jsMapThrow_none_of_mem {α β : Type} {f : α → Option β} {l : α}
    {ls : List α} (hmem : l ∈ ls) (hf : f l = none) :
    jsMapThrow f ls = none := by
  induction ls with
  | nil => simp at hmem
  | cons x xs ih =>
    rcases List.mem_cons.mp hmem with h | h
    · subst h
      simp [jsMapThrow, hf]
    · rw [jsMapThrow]
      cases hfx : f x with
      | none => rfl
      | some y => rw [ih h]; rfl

theorem parseJsonlLines_drop_invalid {jp : Str → Option Json} {l : Str}
    {j : Json} (xs ys : List Str) (hjp : jp l = some j)
    (hshape : entryOf j = none) (hne : l ≠ []) :
    parseJsonlLines jp (xs ++ l :: ys) = parseJsonlLines jp (xs ++ ys) := by
  unfold parseJsonlLines
  have hpl : (!l.isEmpty) = true := by
    cases l with
    | nil => exact absurd rfl hne
    | cons c cs => rfl
  rw [List.filter_append, List.filter_append]
  rw [show List.filter (fun l => !List.isEmpty l) (l :: ys) =
    l :: List.filter (fun l => !List.isEmpty l) ys by
      simp [List.filter_cons, hpl]]
  rw [jsMapThrow_append, jsMapThrow_append]
  rw [show jsMapThrow jp (l :: List.filter (fun l => !l.isEmpty) ys) =
    (jsMapThrow jp (List.filter (fun l => !l.isEmpty) ys)).map (fun b => j :: b) by
      rw [jsMapThrow, hjp]]
  cases jsMapThrow jp (List.filter (fun l => !l.isEmpty) xs) with
  | none => rfl
  | some a =>
    cases jsMapThrow jp (List.filter (fun l => !l.isEmpty) ys) with
    | none => rfl
    | some b =>
      show some (List.filterMap entryOf (a ++ j :: b)) =
        some (List.filterMap entryOf (a ++ b))
      rw [List.filterMap_append, List.filterMap_append,
        List.filterMap_cons_none hshape]

theorem parseJsonlLines_fatal {jp : Str → Option Json} {l : Str}
    {lines : List Str} (hmem : l ∈ lines) (hne : l ≠ []) (hjp : jp l = none) :
    parseJsonlLines jp lines = none := by
  unfold parseJsonlLines
  have hpl : (!l.isEmpty) = true := by
    cases l with
    | nil => exact absurd rfl hne
    | cons c cs => rfl
  have hmem' : l ∈ lines.filter (fun l => !l.isEmpty) :=
    List.mem_filter.mpr ⟨hmem, hpl⟩
  rw [jsMapThrow_none_of_mem hmem' hjp]
  rfl

/-- C1 counterexample: the default config that loadConfig synthesizes and
persists for an absent file has no enabled field at all, so it does not
carry an enabled field set to false. -/
theorem loadConfig_default_no_enabled_field :
    ¬ jsonField loadConfigMissing.2 (str "enabled") = some (Json.bool false) := by
  intro h
  rw [show jsonField loadConfigMissing.2 (str "enabled") = none from rfl] at h
  cases h

/-- C1 amended: for an absent config file, loadConfig synthesizes,
persists and returns the default config consisting solely of an empty
domains list; the persisted JSON object maps domains to the empty array
and carries no enabled field. -/
theorem loadConfig_default_shape :
    loadConfigMissing.1.domains = [] ∧
      jsonField loadConfigMissing.2 (str "domains") = some (Json.arr []) ∧
      jsonField loadConfigMissing.2 (str "enabled") = none :=
  ⟨rfl, rfl, rfl⟩

/-- C2 counterexample: normalizeDomain is not idempotent; on
www.www.example.com it succeeds with www.example.com, which renormalizes
to the different string example.com. -/
theorem normalizeDomain_not_idempotent :
    normalizeDomain (str "www.www.example.com") = Except.ok (str "www.example.com") ∧
      normalizeDomain (str "www.example.com") = Except.ok (str "example.com") ∧
      str "example.com" ≠ str "www.example.com" :=
  ⟨rfl, rfl, by decide⟩

/-- C2 amended: normalizeDomain is idempotent on every input whose
normalized result does not itself start with the literal www. prefix
(the one rewrite that can still fire on a second pass). -/
theorem normalizeDomain_idempotent_of_no_www (x r : Str)
    (h : normalizeDomain x = Except.ok r)
    (hw : hasPre (str "www.") r = false) :
    normalizeDomain r = Except.ok r := by
  rcases normalizeDomain_ok_shape h with ⟨hshape, hdot, _⟩
  exact canon_fix ⟨jsTrim x, hshape⟩ hdot (by rw [hw]; simp)

/-- C2 witness: the idempotence theorem applied at the input a.b, whose
normal form a.b does not start with www. -/
theorem normalizeDomain_idempotent_witness :
    normalizeDomain (str "a.b") = Except.ok (str "a.b") :=
  normalizeDomain_idempotent_of_no_www (str "a.b") (str "a.b") rfl rfl

/-- C3 counterexample: normalizeDomain does not send
https://WWW.Example.com/x to example.com. -/
theorem normalizeDomain_uppercase_www_not_stripped :
    normalizeDomain (str "https://WWW.Example.com/x") ≠ Except.ok (str "example.com") := by
  decide

/-- C3 amended: on https://WWW.Example.com/x the scheme is stripped, the
path is truncated and the result lowercased, but the leading WWW. is not
stripped (the case-sensitive www. rewrite runs before lowercasing), so
the result is www.example.com. -/
theorem normalizeDomain_uppercase_www_result :
    normalizeDomain (str "https://WWW.Example.com/x") = Except.ok (str "www.example.com") :=
  rfl

/-- C5: an invalid pid (non-finite, non-positive, or not an integer)
yields false with no OS signal probe; when the probe is issued, a
permission-denied outcome yields true and a no-such-process outcome
yields false. -/
theorem isPidRunning_spec (probe : Int → ProbeResult) (pid : JsNum) :
    ((jsIsFinite pid = false ∨ jsLeZero pid = true ∨ jsIsInteger pid = false) →
        isPidRunning probe pid = false ∧ pidProbed pid = false) ∧
      (pidProbed pid = true →
        (probe (jsToInt pid) = ProbeResult.eperm → isPidRunning probe pid = true) ∧
        (probe (jsToInt pid) = ProbeResult.esrch → isPidRunning probe pid = false)) := by
  constructor
  · intro hinv
    by_cases hg : (!(jsIsFinite pid) || jsLeZero pid) = true
    · unfold isPidRunning pidProbed
      rw [if_pos hg, if_pos hg]
      exact ⟨rfl, rfl⟩
    · have hfin : jsIsFinite pid = true := by
        cases hf : jsIsFinite pid
        · exact absurd (by rw [hf]; rfl) hg
        · rfl
      have hnint : jsIsInteger pid = false := by
        rcases hinv with h | h | h
        · rw [hfin] at h; cases h
        · exact absurd (by rw [h]; simp) hg
        · exact h
      cases pid with
      | nan => simp [jsIsFinite] at hfin
      | inf => simp [jsIsFinite] at hfin
      | negInf => simp [jsIsFinite] at hfin
      | num q =>
        have hden : ¬ q.den = 1 := by simpa [jsIsInteger] using hnint
        have hint32 : (!(isInt32 (JsNum.num q))) = true := by
          simp [isInt32, hden]
        unfold isPidRunning pidProbed
        rw [if_neg hg, if_neg hg, if_pos hint32, if_pos hint32]
        exact ⟨rfl, rfl⟩
  · intro hp
    unfold pidProbed at hp
    by_cases hg : (!(jsIsFinite pid) || jsLeZero pid) = true
    · rw [if_pos hg] at hp; cases hp
    · rw [if_neg hg] at hp
      by_cases hi : (!(isInt32 pid)) = true
      · rw [if_pos hi] at hp; cases hp
      · unfold isPidRunning
        rw [if_neg hg, if_neg hi]
        constructor
        · intro he; rw [he]
        · intro he; rw [he]

/-- C5 witness: the spec applied to the non-integer pid 5/2 (no probe,
not running) and to pid 7 under an EPERM-raising probe (running) and an
ESRCH-raising probe (not running). -/
theorem isPidRunning_witness :
    (isPidRunning (fun _ => ProbeResult.eperm) (JsNum.num (mkRat 5 2)) = false ∧
      pidProbed (JsNum.num (mkRat 5 2)) = false) ∧
    isPidRunning (fun _ => ProbeResult.eperm) (JsNum.num 7) = true ∧
    isPidRunning (fun _ => ProbeResult.esrch) (JsNum.num 7) = false :=
  ⟨(isPidRunning_spec (fun _ => ProbeResult.eperm) (JsNum.num (mkRat 5 2))).1
      (Or.inr (Or.inr (by decide))),
    ((isPidRunning_spec (fun _ => ProbeResult.eperm) (JsNum.num 7)).2 (by decide)).1 rfl,
    ((isPidRunning_spec (fun _ => ProbeResult.esrch) (JsNum.num 7)).2 (by decide)).2 rfl⟩

/-- C9: enabling blocking with an empty persisted domain set (including
an absent config file, which loads as the empty default) throws the
no-domains error and performs no privileged hosts write. -/
theorem enableBlocking_empty_rejected (file : Option SiteBlockerConfig)
    (h : (loadConfigC file).1.domains = []) :
    enableBlocking file =
      (Except.error (str "No domains to block. Add some first."), []) := by
  unfold enableBlocking
  rw [if_pos (by rw [h]; rfl)]

/-- C9 witness: the rejection theorem applied to the absent config file. -/
theorem enableBlocking_empty_witness :
    enableBlocking none =
      (Except.error (str "No domains to block. Add some first."), []) :=
  enableBlocking_empty_rejected none rfl

theorem loadConfigC_snd (file : Option SiteBlockerConfig) :
    (loadConfigC file).2 = some { domains := (loadConfigC file).1.domains } := by
  cases file <;> rfl

theorem addDomains_stable {ds dlist : List Str}
    (hall : ∀ raw ∈ ds, ∃ nd, normalizeDomain raw = Except.ok nd ∧ nd ∈ dlist) :
    addDomains ds (some { domains := dlist }) =
      (Except.ok [], some { domains := dlist }) := by
  have h := @addLoop_all_present ds dlist [] hall
  simp [addDomains, loadConfigC, h]

/-- C7: a successful addDomains call appends exactly the added domains
(in arrival order, duplicates skipped by normalized equality) to the
stored list, saves only when something was added, returns exactly the
added list, and a second identical call adds nothing and leaves the
store unchanged. -/
theorem addDomains_spec (ds : List Str) (file : Option SiteBlockerConfig)
    (added : List Str) (file' : Option SiteBlockerConfig)
    (h : addDomains ds file = (Except.ok added, file')) :
    file' = some { domains := (loadConfigC file).1.domains ++ added } ∧
      (∀ d ∈ added, d ∉ (loadConfigC file).1.domains) ∧
      added.Nodup ∧
      (added = [] → file' = (loadConfigC file).2) ∧
      addDomains ds file' = (Except.ok [], file') := by
  cases hloop : addLoop ds (loadConfigC file).1.domains [] with
  | error e =>
    simp only [addDomains, hloop] at h
    injection h with h1 h2
    exact Except.noConfusion h1
  | ok pair =>
    obtain ⟨nd, ad⟩ := pair
    rcases addLoop_invariant hloop with ⟨new, hnd, hacc, hnotin, hnodup, hall⟩
    simp only [List.nil_append] at hacc
    subst hacc
    simp only [addDomains, hloop] at h
    by_cases had : ad = []
    · rw [if_pos had] at h
      injection h with h1 h2
      injection h1 with h1
      subst h1
      subst had
      subst h2
      refine ⟨?_, by simp, List.nodup_nil, fun _ => rfl, ?_⟩
      · rw [loadConfigC_snd]
        simp
      · rw [loadConfigC_snd]
        apply addDomains_stable
        intro raw hraw
        rcases hall raw hraw with ⟨d, hd1, hd2⟩
        rw [hnd] at hd2
        simp at hd2
        exact ⟨d, hd1, hd2⟩
    · rw [if_neg had] at h
      injection h with h1 h2
      injection h1 with h1
      subst h1
      subst h2
      refine ⟨by rw [hnd], hnotin, hnodup, fun hc => absurd hc had, ?_⟩
      apply addDomains_stable
      intro raw hraw
      exact hall raw hraw

/-- C7 witness: adding a.b to the absent (empty default) store appends
and returns exactly a.b; the spec instantiated there. -/
theorem addDomains_spec_witness :
    (some { domains := [str "a.b"] } : Option SiteBlockerConfig) =
        some { domains := (loadConfigC none).1.domains ++ [str "a.b"] } ∧
      (∀ d ∈ [str "a.b"], d ∉ (loadConfigC none).1.domains) ∧
      List.Nodup [str "a.b"] ∧
      ([str "a.b"] = ([] : List Str) →
        (some { domains := [str "a.b"] } : Option SiteBlockerConfig) = (loadConfigC none).2) ∧
      addDomains [str "a.b"] (some { domains := [str "a.b"] }) =
        (Except.ok [], some { domains := [str "a.b"] }) :=
  addDomains_spec [str "a.b"] none [str "a.b"] (some { domains := [str "a.b"] }) rfl

/-- C4 counterexample: one unparsable line (oops) in the append-log file
is not discarded independently; it degrades the whole read to [], losing
the entry the other, well-formed line produces on its own. -/
theorem readAccessLog_parse_failure_fatal :
    readAccessLog jpStub dpStub 0
        (some (str "\x7b\"domain\":\"a.com\",\"ts\":\"t1\"\x7d\noops")) none none = [] ∧
      readAccessLog jpStub dpStub 0
        (some (str "\x7b\"domain\":\"a.com\",\"ts\":\"t1\"\x7d")) none none =
        [{ domain := str "a.com", ts := str "t1" }] :=
  ⟨rfl, rfl⟩

/-- C4 amended: a line that parses as JSON but lacks a string domain or
string timestamp is discarded without affecting the entries from other
lines; a line on which JSON.parse itself throws aborts the whole
line-map, so the read degrades to an empty result instead. -/
theorem accessLog_record_failures :
    (∀ (jp : Str → Option Json) (xs ys : List Str) (l : Str) (j : Json),
        jp l = some j → entryOf j = none → l ≠ [] →
        parseJsonlLines jp (xs ++ l :: ys) = parseJsonlLines jp (xs ++ ys)) ∧
      (∀ (jp : Str → Option Json) (lines : List Str) (l : Str),
        l ∈ lines → l ≠ [] → jp l = none →
        parseJsonlLines jp lines = none) :=
  ⟨fun _ xs ys _ _ h1 h2 h3 => parseJsonlLines_drop_invalid xs ys h1 h2 h3,
    fun _ _ _ h1 h2 h3 => parseJsonlLines_fatal h1 h2 h3⟩

/-- C4 witness: the amended theorem applied to a wrong-shape line (the
JSON literal 5) beside a good record, and to an unparsable line. -/
theorem accessLog_record_failures_witness :
    parseJsonlLines jpStub
        [str "\x7b\"domain\":\"a.com\",\"ts\":\"t1\"\x7d", str "5"] =
      parseJsonlLines jpStub [str "\x7b\"domain\":\"a.com\",\"ts\":\"t1\"\x7d"] ∧
      parseJsonlLines jpStub
        [str "\x7b\"domain\":\"a.com\",\"ts\":\"t1\"\x7d", str "oops"] = none :=
  ⟨accessLog_record_failures.1 jpStub
      [str "\x7b\"domain\":\"a.com\",\"ts\":\"t1\"\x7d"] [] (str "5") (Json.num 5)
      rfl rfl (by decide),
    accessLog_record_failures.2 jpStub
      [str "\x7b\"domain\":\"a.com\",\"ts\":\"t1\"\x7d", str "oops"] (str "oops")
      (by simp) (by decide) rfl⟩

/-- C6 counterexample: with a domain containing a newline, the emitted
managed block does not consist of one override line per domain (plus
alias): the embedded newline splits the override into two separate
lines. -/
theorem buildHostsContent_newline_domain_breaks :
    managedBlockLines (buildHostsContent (str "") [str "x\ny.com"]) ≠
      (jsSort [str "x\ny.com"]).flatMap domainLines := by
  decide

/-- C6 amended: for every content and non-empty list of newline-free
domains, the emitted managed block is exactly the override lines of the
lexicographically sorted domains (one loopback line per domain plus a
www alias unless already www-prefixed); in particular blocking
example.com yields exactly its two override lines and blocking
www.example.com exactly one. -/
theorem buildHostsContent_block_shape (h : Str) (ds : List Str)
    (hne : ds ≠ []) (hnl : ∀ d ∈ ds, '\n' ∉ d) :
    (managedBlockLines (buildHostsContent h ds) = (jsSort ds).flatMap domainLines ∧
        List.Sorted strLeP (jsSort ds) ∧ List.Perm (jsSort ds) ds) ∧
      managedBlockLines (buildHostsContent h [str "example.com"]) =
        [str "127.0.0.1 example.com", str "127.0.0.1 www.example.com"] ∧
      managedBlockLines (buildHostsContent h [str "www.example.com"]) =
        [str "127.0.0.1 www.example.com"] := by
  refine ⟨⟨managedBlockLines_build hne hnl, jsSort_sorted ds, jsSort_perm ds⟩, ?_, ?_⟩
  · rw [managedBlockLines_build (by simp) (by decide)]
    decide
  · rw [managedBlockLines_build (by simp) (by decide)]
    decide

/-- C6 witness: the block-shape theorem applied to a standard hosts body
and the unsorted domain pair b.com, a.com. -/
theorem buildHostsContent_block_shape_witness :
    (managedBlockLines
          (buildHostsContent (str "127.0.0.1 localhost\n") [str "b.com", str "a.com"]) =
        (jsSort [str "b.com", str "a.com"]).flatMap domainLines ∧
        List.Sorted strLeP (jsSort [str "b.com", str "a.com"]) ∧
        List.Perm (jsSort [str "b.com", str "a.com"]) [str "b.com", str "a.com"]) ∧
      managedBlockLines (buildHostsContent (str "127.0.0.1 localhost\n") [str "example.com"]) =
        [str "127.0.0.1 example.com", str "127.0.0.1 www.example.com"] ∧
      managedBlockLines
          (buildHostsContent (str "127.0.0.1 localhost\n") [str "www.example.com"]) =
        [str "127.0.0.1 www.example.com"] :=
  buildHostsContent_block_shape (str "127.0.0.1 localhost\n")
    [str "b.com", str "a.com"] (by simp) (by decide)

/-- C8: after stripping, content freshly built by buildHostsContent
contains no line trimming to either marker, for every base content and
domain list (the scanner drops every marker line unconditionally). -/
theorem stripBlock_of_build_no_markers (base : Str) (ds : List Str) :
    ∀ l ∈ splitLines (parseHostsRemoveBlock (buildHostsContent base ds)),
      jsTrim l ≠ MARKER_BEGIN ∧ jsTrim l ≠ MARKER_END :=
  fun l hl => parseHostsRemoveBlock_no_markers _ l hl

/-- C8 witness: the no-markers theorem applied to the line a of the
stripped build over base a newline. -/
theorem stripBlock_of_build_no_markers_witness :
    jsTrim (str "a") ≠ MARKER_BEGIN ∧ jsTrim (str "a") ≠ MARKER_END :=
  stripBlock_of_build_no_markers (str "a\n") [] (str "a") (by decide)

/-- C10: under a days argument, every merged entry whose timestamp the
Date parser rejects (NaN getTime) is dropped from the result, while
without the days argument such entries are retained (sorting only
permutes). -/
theorem readAccessLog_unparsable_ts (jp : Str → Option Json)
    (dp : Str → Option Int) (now : Int) (jsonl legacy : Option Str)
    (es : List AccessLogEntry) (d : Int) (e : AccessLogEntry)
    (hcol : collectEntries jp jsonl legacy = some es)
    (hmem : e ∈ es) (hdp : dp e.ts = none) :
    e ∉ readAccessLog jp dp now jsonl legacy (some d) ∧
      e ∈ readAccessLog jp dp now jsonl legacy none := by
  by_cases hb : (jsonl.isNone && legacy.isNone) = true
  · have hjs : jsonl = none := by
      cases jsonl
      · rfl
      · simp at hb
    have hlg : legacy = none := by
      cases legacy
      · rfl
      · simp [hjs] at hb
    subst hjs
    subst hlg
    rw [show collectEntries jp none none = some [] from rfl] at hcol
    injection hcol with hcol
    rw [← hcol] at hmem
    simp at hmem
  · constructor
    · intro hcon
      simp only [readAccessLog, if_neg hb, hcol] at hcon
      have hpred := (List.mem_filter.mp hcon).2
      simp [hdp] at hpred
    · simp only [readAccessLog, if_neg hb, hcol]
      exact mem_sortByTs.mpr hmem

/-- C10 witness: the filtering theorem applied to the single record whose
timestamp t1 the Date parser rejects. -/
theorem readAccessLog_unparsable_ts_witness :
    ({ domain := str "a.com", ts := str "t1" } : AccessLogEntry) ∉
        readAccessLog jpStub dpStub 0
          (some (str "\x7b\"domain\":\"a.com\",\"ts\":\"t1\"\x7d")) none (some 1) ∧
      ({ domain := str "a.com", ts := str "t1" } : AccessLogEntry) ∈
        readAccessLog jpStub dpStub 0
          (some (str "\x7b\"domain\":\"a.com\",\"ts\":\"t1\"\x7d")) none none :=
  readAccessLog_unparsable_ts jpStub dpStub 0
    (some (str "\x7b\"domain\":\"a.com\",\"ts\":\"t1\"\x7d")) none
    [{ domain := str "a.com", ts := str "t1" }] 1
    { domain := str "a.com", ts := str "t1" } rfl (by simp) rfl

end SiteBlocker
